import Mathlib

/-!
Verification of the publish/subscribe synchronization layer of sr-robot3
(src/sr/robot3/mqtt.py and src/sr/robot3/astoria.py) against its
natural-language specification.

The Python code is shallowly embedded: the MQTT connection wrapper's tracked
subscription dictionary becomes an association list with Python-dict update
semantics, callbacks become opaque tags, side effects on the underlying
paho-mqtt client become explicit action lists, and the priority queue used by
the broadcast helper is embedded as CPython's heapq algorithm (the
implementation backing queue.PriorityQueue), translated instruction by
instruction.
-/

set_option autoImplicit false

namespace SRRobot

/-! ## Embedding of src/sr/robot3/mqtt.py (class MQTTClient)

Callbacks are modelled by an opaque tag type kappa: the claims only need
callback identity, never the callback body. -/

/-- One operation issued to the underlying paho-mqtt client
(message_callback_add, subscribe, message_callback_remove, unsubscribe,
publish, disconnect). -/
inductive Action (kappa : Type) where
  | callbackAdd (topic : String) (cb : kappa)
  | brokerSubscribe (topic : String) (qos : Nat)
  | callbackRemove (topic : String)
  | brokerUnsubscribe (topic : String)
  | brokerPublish (topic : String) (payload : String) (retain : Bool) (qos : Nat)
  | brokerDisconnect
deriving DecidableEq

/-- Python dict assignment d[k] = v on an insertion-ordered association list:
replaces the value in place when the key is present, otherwise appends. -/
def dictSet {kappa : Type} : List (String × kappa) → String → kappa → List (String × kappa)
  | [], k, v => [(k, v)]
  | (k0, v0) :: rest, k, v =>
    if k0 = k then (k, v) :: rest else (k0, v0) :: dictSet rest k v

/-- Python del d[k] wrapped in try/except KeyError (MQTTClient.unsubscribe):
removes the entry when present, no-op when absent. -/
def dictDel {kappa : Type} : List (String × kappa) → String → List (String × kappa)
  | [], _ => []
  | (k0, v0) :: rest, k =>
    if k0 = k then rest else (k0, v0) :: dictDel rest k

/-- State of MQTTClient (mqtt.py lines 36-49): the tracked subscription dict,
the configured topic prefix and the client name. -/
structure MQTTClient (kappa : Type) where
  subscriptions : List (String × kappa)
  topic_prefix : Option String
  client_name : Option String
deriving DecidableEq

/-- The full topic computed by MQTTClient.subscribe (mqtt.py lines 91-94):
the prefix is prepended when override_prefix is false and a prefix is
configured (Python tests the prefix with "is not None"). -/
def MQTTClient.subscribeFullTopic {kappa : Type}
    (c : MQTTClient kappa) (topic : String) (override : Bool) : String :=
  match c with
  | ⟨_, some p, _⟩ => if override then topic else p ++ "/" ++ topic
  | ⟨_, none, _⟩ => topic

/-- MQTTClient.subscribe (mqtt.py lines 84-97): records the callback under the
full (possibly prefixed) topic, then issues message_callback_add and a qos-1
subscribe against the live connection. -/
def MQTTClient.subscribe {kappa : Type} (c : MQTTClient kappa)
    (topic : String) (callback : kappa) (override : Bool) :
    MQTTClient kappa × List (Action kappa) :=
  let full := c.subscribeFullTopic topic override
  ({ c with subscriptions := dictSet c.subscriptions full callback },
   [Action.callbackAdd full callback, Action.brokerSubscribe full 1])

/-- MQTTClient.unsubscribe (mqtt.py lines 108-115): deletes the raw topic key
from the tracked dict (KeyError swallowed), then issues
message_callback_remove and unsubscribe for the raw topic.  Note: no prefix
is applied here, unlike in subscribe. -/
def MQTTClient.unsubscribe {kappa : Type} (c : MQTTClient kappa)
    (topic : String) : MQTTClient kappa × List (Action kappa) :=
  ({ c with subscriptions := dictDel c.subscriptions topic },
   [Action.callbackRemove topic, Action.brokerUnsubscribe topic])

/-- Models the topic validation of the underlying paho-mqtt client: its
publish raises ValueError for topics containing the wildcard characters
used for subscription patterns. -/
def hasWildcard (t : String) : Bool :=
  t.data.any fun ch => ch == '+' || ch == '#'

/-- MQTTClient.publish (mqtt.py lines 117-137).  When not connected: logs an
error and returns (no action, no state change, no exception).  When
connected: applies the prefix when auto_prefix_topic is set and the prefix is
truthy (Python tests "and self.topic_prefix", so an empty prefix does not
apply), then publishes; a ValueError from the underlying client is re-raised
as a ValueError naming the full topic.  Returns the resulting client state
and either the issued actions or the raised exception message. -/
def MQTTClient.publish {kappa : Type} (c : MQTTClient kappa)
    (connected : Bool) (topic : String) (payload : String)
    (retain : Bool) (auto_prefix_topic : Bool) :
    MQTTClient kappa × Except String (List (Action kappa)) :=
  if connected = false then
    (c, Except.ok [])
  else
    let full :=
      match c with
      | ⟨_, some p, _⟩ =>
        if auto_prefix_topic && !(p = "") then p ++ "/" ++ topic else topic
      | ⟨_, none, _⟩ => topic
    if hasWildcard full then
      (c, Except.error ("Cannot publish to MQTT topic: " ++ full))
    else
      (c, Except.ok [Action.brokerPublish full payload retain 1])

/-- MQTTClient._on_connect (mqtt.py lines 139-144): on every successful
(re)connection, iterate over the tracked subscription dict and re-issue
_subscribe (message_callback_add plus subscribe) for each entry, in dict
order. -/
def MQTTClient.onConnect {kappa : Type} (c : MQTTClient kappa) :
    List (Action kappa) :=
  c.subscriptions.flatMap fun p =>
    [Action.callbackAdd p.1 p.2, Action.brokerSubscribe p.1 1]

/-- MQTTClient.disconnect (mqtt.py lines 78-82): disconnects the underlying
client; the tracked subscription dict is not touched. -/
def MQTTClient.disconnect {kappa : Type} (c : MQTTClient kappa) :
    MQTTClient kappa × List (Action kappa) :=
  (c, [Action.brokerDisconnect])

/-- The topics re-subscribed by one _on_connect invocation, in order. -/
def MQTTClient.resubscribedTopics {kappa : Type} (c : MQTTClient kappa) :
    List String :=
  c.onConnect.filterMap fun a =>
    match a with
    | Action.brokerSubscribe t _ => some t
    | _ => none

/-- The topics whose callback is re-registered by one _on_connect
invocation, in order. -/
def MQTTClient.reregisteredTopics {kappa : Type} (c : MQTTClient kappa) :
    List String :=
  c.onConnect.filterMap fun a =>
    match a with
    | Action.callbackAdd t _ => some t
    | _ => none

/-! ## Embedding of src/sr/robot3/astoria.py: subscription life cycle

GetMetadataConsumer.run (lines 48-64) subscribes the two status topics,
waits, and unsubscribes them; BroadcastHelper subscribes broadcast/NAME on
construction (line 178) and unsubscribes it in its finalizer (lines 180-182),
which WaitForStartButtonBroadcastConsumer.close triggers by deleting its
reference (lines 147-150). -/

/-- The effect of GetMetadataConsumer.run on the connection wrapper's
tracked subscription dict: subscribe "astmetad" and "astprocd" (astoria.py
lines 50-51), then unsubscribe both (lines 61-62). -/
def GetMetadataConsumer.runSubscriptionEffect {kappa : Type}
    (c : MQTTClient kappa) (cbMetad cbProcd : kappa) : MQTTClient kappa :=
  let c1 := (c.subscribe "astmetad" cbMetad false).1
  let c2 := (c1.subscribe "astprocd" cbProcd false).1
  let c3 := (c2.unsubscribe "astmetad").1
  (c3.unsubscribe "astprocd").1

/-- BroadcastHelper.__init__ effect on the tracked subscription dict
(astoria.py line 178): subscribe broadcast/NAME with the helper's
_handle_broadcast bound method as callback. -/
def BroadcastHelper.initEffect {kappa : Type}
    (c : MQTTClient kappa) (name : String) (cb : kappa) : MQTTClient kappa :=
  (c.subscribe ("broadcast/" ++ name) cb false).1

/-- BroadcastHelper.__del__ effect (astoria.py lines 180-182): unsubscribe
broadcast/NAME, without the configured prefix. -/
def BroadcastHelper.delEffect {kappa : Type}
    (c : MQTTClient kappa) (name : String) : MQTTClient kappa :=
  (c.unsubscribe ("broadcast/" ++ name)).1

/-- The effect of Robot.wait_start on the tracked subscription dict
(robot.py lines 391-410): WaitForStartButtonBroadcastConsumer creates a
BroadcastHelper for the start-button broadcast event (whose broadcast topic
name is "start_button", per the spec's broadcast/EVENT-NAME namespace), and
close() triggers the helper's __del__ routine.  This definition grants that
the finalizer actually runs (in CPython it does not, because the bound
method stored in the subscription dict still references the helper). -/
def waitStartSubscriptionEffect {kappa : Type}
    (c : MQTTClient kappa) (cb : kappa) : MQTTClient kappa :=
  BroadcastHelper.delEffect (BroadcastHelper.initEffect c "start_button" cb)
    "start_button"

/-! ## Embedding of GetMetadataConsumer (astoria.py lines 27-128)

The astoria message models (MetadataManagerMessage, ProcessManagerMessage)
live in the external astoria package; only the fields the embedded code
reads are modelled, with the metadata payload kept opaque.  JSON decoding
and pydantic validation are external too, so a delivered payload is
embedded by its parse outcome. -/

/-- The status discriminator of an astoria manager status message: the code
only distinguishes RUNNING from everything else (spec section 6: at least
two recognized values, one meaning running). -/
inductive ManagerStatus where
  | STARTING
  | RUNNING
  | STOPPED
deriving DecidableEq

/-- The astmetad status message as read by the code: its status
discriminator and its (opaque) metadata payload. -/
structure MetadataManagerMessage where
  status : ManagerStatus
  metadata : String
deriving DecidableEq

/-- The disk_info member of an astprocd status message: the code reads only
mount_path (astoria.py line 122). -/
structure DiskInfo where
  mount_path : String
deriving DecidableEq

/-- The astprocd status message as read by the code: status discriminator
and optional disk_info. -/
structure ProcessManagerMessage where
  status : ManagerStatus
  disk_info : Option DiskInfo
deriving DecidableEq

/-- The outcome of loads(msg.payload) followed by parse_obj_as on one
delivered payload: malformed JSON, well-formed JSON failing schema
validation, or a parsed message. -/
inductive ParseResult (M : Type) where
  | decodeError
  | validationError
  | ok (msg : M)
deriving DecidableEq

/-- The consumer state initialised in GetMetadataConsumer.__init__
(astoria.py lines 43-46): stored messages and the two threading.Event
flags. -/
structure GMCState where
  metadata_message : Option MetadataManagerMessage
  proc_message : Option ProcessManagerMessage
  astmetad_received : Bool
  astprocd_received : Bool
deriving DecidableEq

/-- Fresh consumer state: no stored message, both events clear. -/
def GMCState.init : GMCState := ⟨none, none, false, false⟩

/-- GetMetadataConsumer._handle_astmetad_message (astoria.py lines 66-84):
on a parsed message with RUNNING status, store it and set the event; on any
other status only log; JSONDecodeError and ValidationError are both caught
and logged.  The Except result records whether an exception escapes the
callback (here: never). -/
def handleAstmetadMessage (s : GMCState)
    (p : ParseResult MetadataManagerMessage) : Except String GMCState :=
  match p with
  | ParseResult.ok m =>
    Except.ok (if m.status = ManagerStatus.RUNNING then
      { s with metadata_message := some m, astmetad_received := true }
    else s)
  | ParseResult.decodeError => Except.ok s
  | ParseResult.validationError => Except.ok s

/-- GetMetadataConsumer._handle_astprocd_message (astoria.py lines 86-104):
same shape as the astmetad handler, storing the process message. -/
def handleAstprocdMessage (s : GMCState)
    (p : ParseResult ProcessManagerMessage) : Except String GMCState :=
  match p with
  | ParseResult.ok m =>
    Except.ok (if m.status = ManagerStatus.RUNNING then
      { s with proc_message := some m, astprocd_received := true }
    else s)
  | ParseResult.decodeError => Except.ok s
  | ParseResult.validationError => Except.ok s

/-- One payload delivered on a subscribed topic during a run: its arrival
time (milliseconds from the start of run) and its parse outcome. -/
structure ArrivingMsg (M : Type) where
  time : Nat
  parse : ParseResult M
deriving DecidableEq

/-- All payloads the broker delivers on the two status topics. -/
structure RunInput where
  metadMsgs : List (ArrivingMsg MetadataManagerMessage)
  procdMsgs : List (ArrivingMsg ProcessManagerMessage)
deriving DecidableEq

/-- Whether a delivered astmetad payload parses to a RUNNING message (the
only case in which the handler sets the event). -/
def isRunningMetad (a : ArrivingMsg MetadataManagerMessage) : Bool :=
  match a.parse with
  | ParseResult.ok m => m.status = ManagerStatus.RUNNING
  | _ => false

/-- Whether a delivered astprocd payload parses to a RUNNING message. -/
def isRunningProcd (a : ArrivingMsg ProcessManagerMessage) : Bool :=
  match a.parse with
  | ParseResult.ok m => m.status = ManagerStatus.RUNNING
  | _ => false

/-- Earliest of a list of arrival times, none when empty. -/
def minTime : List Nat → Option Nat
  | [] => none
  | t :: ts =>
    match minTime ts with
    | none => some t
    | some u => some (min t u)

/-- The instant the astmetad event is set: the earliest arrival of a RUNNING
astmetad message. -/
def eventSetTimeMetad (inp : RunInput) : Option Nat :=
  minTime ((inp.metadMsgs.filter isRunningMetad).map fun a => a.time)

/-- The instant the astprocd event is set: the earliest arrival of a RUNNING
astprocd message. -/
def eventSetTimeProcd (inp : RunInput) : Option Nat :=
  minTime ((inp.procdMsgs.filter isRunningProcd).map fun a => a.time)

/-- When the first Event.wait of run returns (astoria.py line 58): at the
astmetad event if it is set within the half-budget window, else at the
half-budget timeout (timeout_step = timeout / 2, line 53). -/
def runFirstWaitEnd (timeout : Nat) (inp : RunInput) : Nat :=
  match eventSetTimeMetad inp with
  | some t => min t (timeout / 2)
  | none => timeout / 2

/-- When run returns (astoria.py line 59): the second wait starts at the end
of the first and lasts at most another half budget; it returns as soon as
the astprocd event is set (possibly already before it starts). -/
def runFinishTime (timeout : Nat) (inp : RunInput) : Nat :=
  let e1 := runFirstWaitEnd timeout inp
  match eventSetTimeProcd inp with
  | some t => max e1 (min t (e1 + timeout / 2))
  | none => e1 + timeout / 2

/-- The value run returns (astoria.py lines 59, 64): whether the astprocd
event is set when the second wait returns. -/
def runReceived (timeout : Nat) (inp : RunInput) : Bool :=
  match eventSetTimeProcd inp with
  | some t => t ≤ runFirstWaitEnd timeout inp + timeout / 2
  | none => false

/-- One callback invocation of the astmetad handler on the I/O thread (the
handler never lets an exception escape, so the error branch is vacuous). -/
def astmetadStep (s : GMCState)
    (a : ArrivingMsg MetadataManagerMessage) : GMCState :=
  match handleAstmetadMessage s a.parse with
  | Except.ok s2 => s2
  | Except.error _ => s

/-- One callback invocation of the astprocd handler on the I/O thread. -/
def astprocdStep (s : GMCState)
    (a : ArrivingMsg ProcessManagerMessage) : GMCState :=
  match handleAstprocdMessage s a.parse with
  | Except.ok s2 => s2
  | Except.error _ => s

/-- Consumer state when run returns: every payload delivered before the
topics are unsubscribed (astoria.py lines 61-62) has been fed to its
handler.  The two handlers touch disjoint fields, so the interleaving
across topics is irrelevant. -/
def runState (timeout : Nat) (inp : RunInput) : GMCState :=
  let f := runFinishTime timeout inp
  let ms := inp.metadMsgs.filter fun a => a.time ≤ f
  let ps := inp.procdMsgs.filter fun a => a.time ≤ f
  ps.foldl astprocdStep (ms.foldl astmetadStep GMCState.init)

/-- The pair returned by GetMetadataConsumer.get_metadata (astoria.py lines
27-31, 106-128): the metadata (or the default built from the local config)
and the usb path (or /dev/null). -/
structure GetMetadataResult where
  metadata : String
  usb_path : String
deriving DecidableEq

/-- GetMetadataConsumer.get_metadata (astoria.py lines 106-128): run with a
0.1 s (100 ms) timeout; only when run returned true (astprocd event set) are
the stored messages consulted, the metadata defaulting when no astmetad
message was stored and the path defaulting when the process message carries
no disk_info; otherwise both defaults are returned.  defaultMetadata stands
for Metadata.init(config), built from the local config (line 112). -/
def get_metadata (inp : RunInput) (defaultMetadata : String) :
    GetMetadataResult :=
  let s := runState 100 inp
  if runReceived 100 inp then
    ⟨match s.metadata_message with
     | some m => m.metadata
     | none => defaultMetadata,
     match s.proc_message with
     | some pm =>
       match pm.disk_info with
       | some di => di.mount_path
       | none => "/dev/null"
     | none => "/dev/null"⟩
  else ⟨defaultMetadata, "/dev/null"⟩

/-! ## Claim theorems about the connection wrapper -/

/-- C5: publishing on a disconnected connection wrapper raises no exception,
issues no action to the broker (nothing is transmitted or queued), and
leaves the wrapper's state unchanged. -/
theorem c5_publish_disconnected_is_silent_noop {kappa : Type}
    (c : MQTTClient kappa) (topic payload : String)
    (retain auto_prefix_topic : Bool) :
    c.publish false topic payload retain auto_prefix_topic
      = (c, Except.ok []) := by
  rfl

/-- C10: while connected, publish is not exception-free: for a topic the
underlying client rejects (a wildcard character in the full topic), publish
raises a ValueError naming the full, prefixed topic; with no configured
prefix the raw topic is named. -/
theorem c10_publish_connected_wildcard_raises {kappa : Type}
    (subs : List (String × kappa)) (cname : Option String)
    (p topic payload : String) (retain : Bool)
    (hp : ¬p = "") (hw : hasWildcard (p ++ "/" ++ topic) = true)
    (hw0 : hasWildcard topic = true) :
    (MQTTClient.publish ⟨subs, some p, cname⟩ true topic payload retain true
        = (⟨subs, some p, cname⟩,
           Except.error ("Cannot publish to MQTT topic: " ++ (p ++ "/" ++ topic))))
    ∧ (MQTTClient.publish ⟨subs, none, cname⟩ true topic payload retain true
        = (⟨subs, none, cname⟩,
           Except.error ("Cannot publish to MQTT topic: " ++ topic))) := by
  constructor
  · simp [MQTTClient.publish, hp, hw]
  · simp [MQTTClient.publish, hw0]

/-- Witness for C10 at a concrete input: prefix "test", topic "camera/+". -/
theorem c10_publish_connected_wildcard_raises_witness :
    (MQTTClient.publish (⟨[], some "test", some "sr-robot3"⟩ : MQTTClient Nat)
        true "camera/+" "img" false true
      = (⟨[], some "test", some "sr-robot3"⟩,
         Except.error "Cannot publish to MQTT topic: test/camera/+")) := by
  have h := @c10_publish_connected_wildcard_raises Nat
    [] (some "sr-robot3") "test" "camera/+" "img" false
    (by decide) (by rfl) (by rfl)
  exact h.1

/-- Helper: the re-subscribed topic list of one _on_connect run is the key
list of the tracked dict. -/
theorem resubscribedTopics_eq_keys {kappa : Type}
    (subs : List (String × kappa)) (tp cn : Option String) :
    MQTTClient.resubscribedTopics ⟨subs, tp, cn⟩ = subs.map Prod.fst := by
  induction subs with
  | nil => rfl
  | cons hd tl ih =>
    simp only [MQTTClient.resubscribedTopics, MQTTClient.onConnect] at ih ⊢
    simp only [List.flatMap_cons, List.filterMap_append, ih]
    rfl

/-- Helper: the re-registered callback topic list of one _on_connect run is
the key list of the tracked dict. -/
theorem reregisteredTopics_eq_keys {kappa : Type}
    (subs : List (String × kappa)) (tp cn : Option String) :
    MQTTClient.reregisteredTopics ⟨subs, tp, cn⟩ = subs.map Prod.fst := by
  induction subs with
  | nil => rfl
  | cons hd tl ih =>
    simp only [MQTTClient.reregisteredTopics, MQTTClient.onConnect] at ih ⊢
    simp only [List.flatMap_cons, List.filterMap_append, ih]
    rfl

/-- C8: one (re)connection re-subscribes exactly the tracked topics: the
re-subscribed topic list and the re-registered callback list both equal the
tracked key list, disconnect leaves the tracked dict untouched, and (keys
being unique, as for a Python dict) each tracked topic is re-subscribed and
re-registered exactly once, untracked topics never. -/
theorem c8_reconnect_restores_tracked_subscriptions {kappa : Type}
    (c : MQTTClient kappa) :
    c.resubscribedTopics = c.subscriptions.map Prod.fst
    ∧ c.reregisteredTopics = c.subscriptions.map Prod.fst
    ∧ (c.disconnect).1.subscriptions = c.subscriptions
    ∧ ((c.subscriptions.map Prod.fst).Nodup → ∀ t : String,
        List.count t c.resubscribedTopics
            = (if t ∈ c.subscriptions.map Prod.fst then 1 else 0)
        ∧ List.count t c.reregisteredTopics
            = (if t ∈ c.subscriptions.map Prod.fst then 1 else 0)) := by
  obtain ⟨subs, tp, cn⟩ := c
  have hre := resubscribedTopics_eq_keys subs tp cn
  have hrg := reregisteredTopics_eq_keys subs tp cn
  refine ⟨hre, hrg, rfl, fun hnd t => ?_⟩
  rw [hre, hrg]
  by_cases hmem : t ∈ subs.map Prod.fst
  · simp [hmem, List.count_eq_one_of_mem hnd hmem]
  · simp [hmem, List.count_eq_zero_of_not_mem hmem]

/-- Witness for C8 at a concrete client with two tracked topics. -/
theorem c8_reconnect_restores_tracked_subscriptions_witness :
    MQTTClient.resubscribedTopics
        (⟨[("astmetad", 0), ("astprocd", 1)], none, none⟩ : MQTTClient Nat)
      = ["astmetad", "astprocd"]
    ∧ List.count "astmetad" (MQTTClient.resubscribedTopics
        (⟨[("astmetad", 0), ("astprocd", 1)], none, none⟩ : MQTTClient Nat)) = 1 := by
  have h := c8_reconnect_restores_tracked_subscriptions
    (⟨[("astmetad", 0), ("astprocd", 1)], none, none⟩ : MQTTClient Nat)
  refine ⟨h.1, ?_⟩
  have h4 := (h.2.2.2 (by decide) "astmetad").1
  simpa using h4

/-- C1: the snapshot waiter's teardown does not restore the tracked
subscription dict when a topic prefix is configured: run subscribes the
prefixed topics but unsubscribes the raw names, so both prefixed entries
leak; without a prefix the dict does return to its pre-call value.  The code
contradicts the specified no-leak guarantee on the prefixed configuration. -/
theorem c1_run_leaks_subscriptions_under_prefix :
    (GetMetadataConsumer.runSubscriptionEffect
        (⟨[], some "test", some "sr-robot3"⟩ : MQTTClient Nat) 0 1).subscriptions
      = [("test/astmetad", 0), ("test/astprocd", 1)]
    ∧ (GetMetadataConsumer.runSubscriptionEffect
        (⟨[], some "test", some "sr-robot3"⟩ : MQTTClient Nat) 0 1).subscriptions ≠ []
    ∧ (GetMetadataConsumer.runSubscriptionEffect
        (⟨[], none, some "sr-robot3"⟩ : MQTTClient Nat) 0 1).subscriptions = [] := by
  exact ⟨by decide, by decide, by decide⟩

/-- C9: after wait_start's teardown, the start-button broadcast subscription
is not removed from the tracked dict when a topic prefix is configured: the
helper subscribed "PREFIX/broadcast/start_button" but its finalizer
unsubscribes the unprefixed "broadcast/start_button", so the entry remains
(and in CPython the finalizer is not even invoked, since the tracked dict
itself still references the helper's bound method).  Without a prefix the
entry is removed. -/
theorem c9_wait_start_leaks_subscription_under_prefix :
    (waitStartSubscriptionEffect
        (⟨[], some "test", some "sr-robot3"⟩ : MQTTClient Nat) 0).subscriptions
      = [("test/broadcast/start_button", 0)]
    ∧ (waitStartSubscriptionEffect
        (⟨[], some "test", some "sr-robot3"⟩ : MQTTClient Nat) 0).subscriptions ≠ []
    ∧ (waitStartSubscriptionEffect
        (⟨[], none, some "sr-robot3"⟩ : MQTTClient Nat) 0).subscriptions = [] := by
  exact ⟨by decide, by decide, by decide⟩

/-! ## Claim theorems about the snapshot waiter -/

/-- C2 counterexample: topic astmetad delivers a valid RUNNING status at
20 ms and astprocd never delivers, yet get_metadata returns the default
metadata, not the delivered payload: the success gate tests only the
astprocd event, so the delivered astmetad payload is discarded.  This
refutes the claimed per-topic independence. -/
theorem c2_counterexample_delivered_metadata_discarded :
    get_metadata
        ⟨[⟨20, ParseResult.ok ⟨ManagerStatus.RUNNING, "delivered-metadata"⟩⟩], []⟩
        "default-metadata"
      = ⟨"default-metadata", "/dev/null"⟩
    ∧ ("default-metadata" : String) ≠ "delivered-metadata" := by
  exact ⟨by decide, by decide⟩

/-- C2 (amended): the call always returns within the total budget, and the
per-topic result holds only in one direction: when astprocd delivers a
RUNNING status inside its window and astmetad never delivers, the result is
the default metadata paired with the delivered mount path; but when astmetad
delivers and astprocd never does, BOTH defaults are returned (the success
gate checks only the astprocd event), discarding the delivered payload. -/
theorem c2_amended_per_topic_results :
    (∀ (timeout : Nat) (inp : RunInput), runFinishTime timeout inp ≤ timeout)
    ∧ (∀ (d : String) (t : Nat) (pm : ProcessManagerMessage),
        pm.status = ManagerStatus.RUNNING → t ≤ 50 →
        get_metadata ⟨[], [⟨t, ParseResult.ok pm⟩]⟩ d
          = ⟨d, match pm.disk_info with
                | some di => di.mount_path
                | none => "/dev/null"⟩)
    ∧ (∀ (d : String) (t : Nat) (m : MetadataManagerMessage),
        get_metadata ⟨[⟨t, ParseResult.ok m⟩], []⟩ d = ⟨d, "/dev/null"⟩) := by
  refine ⟨?_, ?_, ?_⟩
  · intro timeout inp
    unfold runFinishTime runFirstWaitEnd
    cases eventSetTimeMetad inp <;> cases eventSetTimeProcd inp <;> simp <;> omega
  · intro d t pm hpm ht
    have hrp : isRunningProcd ⟨t, ParseResult.ok pm⟩ = true := by
      simp [isRunningProcd, hpm]
    have het : eventSetTimeProcd ⟨[], [⟨t, ParseResult.ok pm⟩]⟩ = some t := by
      simp [eventSetTimeProcd, hrp, minTime]
    have hem : eventSetTimeMetad ⟨[], [⟨t, ParseResult.ok pm⟩]⟩ = none := rfl
    have he1 : runFirstWaitEnd 100 ⟨[], [⟨t, ParseResult.ok pm⟩]⟩ = 50 := by
      simp [runFirstWaitEnd, hem]
    have hfin : runFinishTime 100 ⟨[], [⟨t, ParseResult.ok pm⟩]⟩ = 50 := by
      simp only [runFinishTime, het, he1]
      omega
    have hrec : runReceived 100 ⟨[], [⟨t, ParseResult.ok pm⟩]⟩ = true := by
      simp only [runReceived, het, he1]
      simp
      omega
    have hstate : runState 100 ⟨[], [⟨t, ParseResult.ok pm⟩]⟩
        = ⟨none, some pm, false, true⟩ := by
      simp [runState, hfin, ht, astprocdStep, handleAstprocdMessage, hpm,
        GMCState.init]
    simp [get_metadata, hrec, hstate]
  · intro d t m
    have hep : eventSetTimeProcd ⟨[⟨t, ParseResult.ok m⟩], []⟩ = none := rfl
    have hrec : runReceived 100 ⟨[⟨t, ParseResult.ok m⟩], []⟩ = false := by
      simp [runReceived, hep]
    simp [get_metadata, hrec]

/-- Witness for C2 (amended) at the spec's concrete scenario: 100 ms budget,
delivery at 20 ms. -/
theorem c2_amended_per_topic_results_witness :
    runFinishTime 100
        ⟨[⟨20, ParseResult.ok ⟨ManagerStatus.RUNNING, "m"⟩⟩], []⟩ ≤ 100
    ∧ get_metadata
        ⟨[], [⟨20, ParseResult.ok ⟨ManagerStatus.RUNNING, some ⟨"/media/usb0"⟩⟩⟩]⟩
        "dm"
      = ⟨"dm", "/media/usb0"⟩
    ∧ get_metadata
        ⟨[⟨20, ParseResult.ok ⟨ManagerStatus.RUNNING, "m"⟩⟩], []⟩ "dm"
      = ⟨"dm", "/dev/null"⟩ := by
  refine ⟨c2_amended_per_topic_results.1 100 _, ?_, ?_⟩
  · exact c2_amended_per_topic_results.2.1 "dm" 20
      ⟨ManagerStatus.RUNNING, some ⟨"/media/usb0"⟩⟩ rfl (by decide)
  · exact c2_amended_per_topic_results.2.2 "dm" 20 ⟨ManagerStatus.RUNNING, "m"⟩

/-- Helper: a folded step that fixes every state can be dropped from the
middle of a fold. -/
theorem foldl_congr_inert {α σ : Type} (step : σ → α → σ) (a : α)
    (hinert : ∀ s, step s a = s) :
    ∀ (l1 l2 : List α) (s : σ),
      (l1 ++ a :: l2).foldl step s = (l1 ++ l2).foldl step s := by
  intro l1
  induction l1 with
  | nil => intro l2 s; simp [hinert]
  | cons hd tl ih => intro l2 s; simp only [List.cons_append, List.foldl_cons]; exact ih l2 (step s hd)

/-- Helper: same, through a filter. -/
theorem foldl_filter_splice {α σ : Type} (step : σ → α → σ) (p : α → Bool)
    (a : α) (hinert : ∀ s, step s a = s) (l1 l2 : List α) (s : σ) :
    ((l1 ++ a :: l2).filter p).foldl step s
      = ((l1 ++ l2).filter p).foldl step s := by
  rw [List.filter_append, List.filter_append, List.filter_cons]
  by_cases h : p a = true
  · simp only [h, if_pos]
    exact foldl_congr_inert step a hinert (l1.filter p) (l2.filter p) s
  · simp only [h]
    simp

/-- Helper: the astmetad handler step fixes the state on every payload that
is not a RUNNING message (malformed, invalid, or non-RUNNING status). -/
theorem astmetadStep_inert (a : ArrivingMsg MetadataManagerMessage)
    (h : isRunningMetad a = false) (s : GMCState) : astmetadStep s a = s := by
  obtain ⟨t, p⟩ := a
  cases p with
  | ok m =>
    simp only [isRunningMetad, decide_eq_false_iff_not] at h
    simp [astmetadStep, handleAstmetadMessage, h]
  | decodeError => rfl
  | validationError => rfl

/-- Helper: the astprocd handler step fixes the state on every payload that
is not a RUNNING message. -/
theorem astprocdStep_inert (a : ArrivingMsg ProcessManagerMessage)
    (h : isRunningProcd a = false) (s : GMCState) : astprocdStep s a = s := by
  obtain ⟨t, p⟩ := a
  cases p with
  | ok m =>
    simp only [isRunningProcd, decide_eq_false_iff_not] at h
    simp [astprocdStep, handleAstprocdMessage, h]
  | decodeError => rfl
  | validationError => rfl

/-- Helper: a non-RUNNING astmetad payload does not move the astmetad event
set time. -/
theorem eventSetTimeMetad_splice
    (pre post : List (ArrivingMsg MetadataManagerMessage))
    (q : List (ArrivingMsg ProcessManagerMessage))
    (a : ArrivingMsg MetadataManagerMessage) (h : isRunningMetad a = false) :
    eventSetTimeMetad ⟨pre ++ a :: post, q⟩ = eventSetTimeMetad ⟨pre ++ post, q⟩ := by
  simp [eventSetTimeMetad, List.filter_append, List.filter_cons, h]

/-- Helper: a non-RUNNING astprocd payload does not move the astprocd event
set time. -/
theorem eventSetTimeProcd_splice
    (p : List (ArrivingMsg MetadataManagerMessage))
    (pre post : List (ArrivingMsg ProcessManagerMessage))
    (a : ArrivingMsg ProcessManagerMessage) (h : isRunningProcd a = false) :
    eventSetTimeProcd ⟨p, pre ++ a :: post⟩ = eventSetTimeProcd ⟨p, pre ++ post⟩ := by
  simp [eventSetTimeProcd, List.filter_append, List.filter_cons, h]

/-- Helper: dropping a non-RUNNING astmetad payload changes nothing the
waiter observes: finish time, return flag and final consumer state agree. -/
theorem run_splice_metad (timeout : Nat)
    (pre post : List (ArrivingMsg MetadataManagerMessage))
    (q : List (ArrivingMsg ProcessManagerMessage))
    (a : ArrivingMsg MetadataManagerMessage) (h : isRunningMetad a = false) :
    runFinishTime timeout ⟨pre ++ a :: post, q⟩ = runFinishTime timeout ⟨pre ++ post, q⟩
    ∧ runReceived timeout ⟨pre ++ a :: post, q⟩ = runReceived timeout ⟨pre ++ post, q⟩
    ∧ runState timeout ⟨pre ++ a :: post, q⟩ = runState timeout ⟨pre ++ post, q⟩ := by
  have hem := eventSetTimeMetad_splice pre post q a h
  have hep : eventSetTimeProcd ⟨pre ++ a :: post, q⟩
      = eventSetTimeProcd ⟨pre ++ post, q⟩ := rfl
  have hf : runFinishTime timeout ⟨pre ++ a :: post, q⟩
      = runFinishTime timeout ⟨pre ++ post, q⟩ := by
    simp [runFinishTime, runFirstWaitEnd, hem, hep]
  refine ⟨hf, ?_, ?_⟩
  · simp [runReceived, runFirstWaitEnd, hem, hep]
  · simp only [runState, hf]
    exact congrArg
      (fun s0 => (q.filter fun b => decide (b.time ≤ runFinishTime timeout ⟨pre ++ post, q⟩)).foldl astprocdStep s0)
      (foldl_filter_splice astmetadStep _ a (astmetadStep_inert a h) pre post GMCState.init)

/-- Helper: dropping a non-RUNNING astprocd payload changes nothing the
waiter observes. -/
theorem run_splice_procd (timeout : Nat)
    (p : List (ArrivingMsg MetadataManagerMessage))
    (pre post : List (ArrivingMsg ProcessManagerMessage))
    (a : ArrivingMsg ProcessManagerMessage) (h : isRunningProcd a = false) :
    runFinishTime timeout ⟨p, pre ++ a :: post⟩ = runFinishTime timeout ⟨p, pre ++ post⟩
    ∧ runReceived timeout ⟨p, pre ++ a :: post⟩ = runReceived timeout ⟨p, pre ++ post⟩
    ∧ runState timeout ⟨p, pre ++ a :: post⟩ = runState timeout ⟨p, pre ++ post⟩ := by
  have hep := eventSetTimeProcd_splice p pre post a h
  have hem : eventSetTimeMetad ⟨p, pre ++ a :: post⟩
      = eventSetTimeMetad ⟨p, pre ++ post⟩ := rfl
  have hf : runFinishTime timeout ⟨p, pre ++ a :: post⟩
      = runFinishTime timeout ⟨p, pre ++ post⟩ := by
    simp [runFinishTime, runFirstWaitEnd, hem, hep]
  refine ⟨hf, ?_, ?_⟩
  · simp [runReceived, runFirstWaitEnd, hem, hep]
  · simp only [runState, hf]
    exact foldl_filter_splice astprocdStep _ a (astprocdStep_inert a h) pre post _

/-- Helper: a fold over steps that all fix the state is the identity. -/
theorem foldl_all_inert {α σ : Type} (step : σ → α → σ) :
    ∀ (l : List α), (∀ a ∈ l, ∀ s, step s a = s) → ∀ s, l.foldl step s = s := by
  intro l
  induction l with
  | nil => intro _ s; rfl
  | cons hd tl ih =>
    intro h s
    rw [List.foldl_cons, h hd (by simp)]
    exact ih (fun a ha s2 => h a (by simp [ha]) s2) s

/-- Helper: the astprocd handler never touches the astmetad fields. -/
theorem foldl_astprocd_preserves_metad :
    ∀ (l : List (ArrivingMsg ProcessManagerMessage)) (s : GMCState),
      (l.foldl astprocdStep s).metadata_message = s.metadata_message
      ∧ (l.foldl astprocdStep s).astmetad_received = s.astmetad_received := by
  intro l
  induction l with
  | nil => intro s; exact ⟨rfl, rfl⟩
  | cons hd tl ih =>
    intro s
    rw [List.foldl_cons]
    refine ⟨(ih _).1.trans ?_, (ih _).2.trans ?_⟩ <;>
      · obtain ⟨t, p⟩ := hd
        cases p with
        | ok m =>
          simp only [astprocdStep, handleAstprocdMessage]
          by_cases hm : m.status = ManagerStatus.RUNNING <;> simp [hm]
        | decodeError => rfl
        | validationError => rfl

/-- Helper: when no delivered astmetad payload is a RUNNING message, the
waiter stores no metadata and the astmetad event stays clear, so the caller
gets the default metadata whatever happens on the other topic. -/
theorem get_metadata_default_of_no_running_metad (inp : RunInput) (d : String)
    (h : ∀ a ∈ inp.metadMsgs, isRunningMetad a = false) :
    (runState 100 inp).metadata_message = none
    ∧ (runState 100 inp).astmetad_received = false
    ∧ (get_metadata inp d).metadata = d := by
  have hinner :
      ((inp.metadMsgs.filter fun a => decide (a.time ≤ runFinishTime 100 inp)).foldl
        astmetadStep GMCState.init) = GMCState.init := by
    refine foldl_all_inert astmetadStep _ ?_ GMCState.init
    intro a ha s
    exact astmetadStep_inert a (h a (List.mem_of_mem_filter ha)) s
  have hs1 : (runState 100 inp).metadata_message = none := by
    simp only [runState, hinner]
    exact (foldl_astprocd_preserves_metad _ _).1
  have hs2 : (runState 100 inp).astmetad_received = false := by
    simp only [runState, hinner]
    exact (foldl_astprocd_preserves_metad _ _).2
  refine ⟨hs1, hs2, ?_⟩
  by_cases hr : runReceived 100 inp = true <;> simp [get_metadata, hr, hs1]

/-- C6: a status message that parses but is not RUNNING is ignored: the
handler stores nothing and raises nothing, deleting such a message from the
delivered stream (on either topic) leaves the whole get_metadata outcome
unchanged, and when a topic receives only such messages its default is
returned. -/
theorem c6_non_running_status_behaves_as_no_message :
    (∀ (s : GMCState) (m : MetadataManagerMessage),
      m.status ≠ ManagerStatus.RUNNING →
      handleAstmetadMessage s (ParseResult.ok m) = Except.ok s)
    ∧ (∀ (s : GMCState) (pm : ProcessManagerMessage),
      pm.status ≠ ManagerStatus.RUNNING →
      handleAstprocdMessage s (ParseResult.ok pm) = Except.ok s)
    ∧ (∀ (d : String) (pre post : List (ArrivingMsg MetadataManagerMessage))
        (q : List (ArrivingMsg ProcessManagerMessage)) (t : Nat)
        (m : MetadataManagerMessage), m.status ≠ ManagerStatus.RUNNING →
        get_metadata ⟨pre ++ ⟨t, ParseResult.ok m⟩ :: post, q⟩ d
          = get_metadata ⟨pre ++ post, q⟩ d)
    ∧ (∀ (d : String) (p : List (ArrivingMsg MetadataManagerMessage))
        (pre post : List (ArrivingMsg ProcessManagerMessage)) (t : Nat)
        (pm : ProcessManagerMessage), pm.status ≠ ManagerStatus.RUNNING →
        get_metadata ⟨p, pre ++ ⟨t, ParseResult.ok pm⟩ :: post⟩ d
          = get_metadata ⟨p, pre ++ post⟩ d)
    ∧ (∀ (d : String) (inp : RunInput),
        (∀ a ∈ inp.metadMsgs, isRunningMetad a = false) →
        (get_metadata inp d).metadata = d) := by
  refine ⟨?_, ?_, ?_, ?_, ?_⟩
  · intro s m hm; simp [handleAstmetadMessage, hm]
  · intro s pm hm; simp [handleAstprocdMessage, hm]
  · intro d pre post q t m hm
    have hir : isRunningMetad ⟨t, ParseResult.ok m⟩ = false := by
      simp [isRunningMetad, hm]
    obtain ⟨-, hrec, hst⟩ := run_splice_metad 100 pre post q _ hir
    simp [get_metadata, hrec, hst]
  · intro d p pre post t pm hm
    have hir : isRunningProcd ⟨t, ParseResult.ok pm⟩ = false := by
      simp [isRunningProcd, hm]
    obtain ⟨-, hrec, hst⟩ := run_splice_procd 100 p pre post _ hir
    simp [get_metadata, hrec, hst]
  · intro d inp h
    exact (get_metadata_default_of_no_running_metad inp d h).2.2

/-- Witness for C6 at a concrete STOPPED message on each topic. -/
theorem c6_non_running_status_behaves_as_no_message_witness :
    get_metadata ⟨[⟨10, ParseResult.ok ⟨ManagerStatus.STOPPED, "x"⟩⟩], []⟩ "d"
        = get_metadata ⟨[], []⟩ "d"
    ∧ get_metadata ⟨[], [⟨10, ParseResult.ok ⟨ManagerStatus.STOPPED, none⟩⟩]⟩ "d"
        = get_metadata ⟨[], []⟩ "d"
    ∧ (get_metadata ⟨[⟨10, ParseResult.ok ⟨ManagerStatus.STOPPED, "x"⟩⟩], []⟩ "d").metadata
        = "d" := by
  refine ⟨?_, ?_, ?_⟩
  · exact c6_non_running_status_behaves_as_no_message.2.2.1 "d" [] [] [] 10
      ⟨ManagerStatus.STOPPED, "x"⟩ (by decide)
  · exact c6_non_running_status_behaves_as_no_message.2.2.2.1 "d" [] [] [] 10
      ⟨ManagerStatus.STOPPED, none⟩ (by decide)
  · exact c6_non_running_status_behaves_as_no_message.2.2.2.2 "d" _
      (by intro a ha; simp at ha; subst ha; rfl)

/-- C7: a malformed (undecodable) payload is dropped without raising: the
handler returns the state unchanged (no exception escapes), deleting such a
message from the delivered stream (on either topic) leaves the whole
get_metadata outcome unchanged, and when a topic receives only malformed
payloads its default is returned after the timeout. -/
theorem c7_malformed_json_dropped_without_raising :
    (∀ s : GMCState, handleAstmetadMessage s ParseResult.decodeError = Except.ok s)
    ∧ (∀ s : GMCState, handleAstprocdMessage s ParseResult.decodeError = Except.ok s)
    ∧ (∀ (d : String) (pre post : List (ArrivingMsg MetadataManagerMessage))
        (q : List (ArrivingMsg ProcessManagerMessage)) (t : Nat),
        get_metadata ⟨pre ++ ⟨t, ParseResult.decodeError⟩ :: post, q⟩ d
          = get_metadata ⟨pre ++ post, q⟩ d)
    ∧ (∀ (d : String) (p : List (ArrivingMsg MetadataManagerMessage))
        (pre post : List (ArrivingMsg ProcessManagerMessage)) (t : Nat),
        get_metadata ⟨p, pre ++ ⟨t, ParseResult.decodeError⟩ :: post⟩ d
          = get_metadata ⟨p, pre ++ post⟩ d)
    ∧ (∀ (d : String) (inp : RunInput),
        (∀ a ∈ inp.metadMsgs, a.parse = ParseResult.decodeError) →
        (get_metadata inp d).metadata = d
        ∧ (runState 100 inp).astmetad_received = false) := by
  refine ⟨fun s => rfl, fun s => rfl, ?_, ?_, ?_⟩
  · intro d pre post q t
    obtain ⟨-, hrec, hst⟩ := run_splice_metad 100 pre post q
      ⟨t, ParseResult.decodeError⟩ rfl
    simp [get_metadata, hrec, hst]
  · intro d p pre post t
    obtain ⟨-, hrec, hst⟩ := run_splice_procd 100 p pre post
      ⟨t, ParseResult.decodeError⟩ rfl
    simp [get_metadata, hrec, hst]
  · intro d inp h
    have h2 : ∀ a ∈ inp.metadMsgs, isRunningMetad a = false := by
      intro a ha
      obtain ⟨t, p⟩ := a
      have hp : p = ParseResult.decodeError := h _ ha
      subst hp
      rfl
    obtain ⟨-, hrcv, hdef⟩ := get_metadata_default_of_no_running_metad inp d h2
    exact ⟨hdef, hrcv⟩

/-- Witness for C7 at a concrete malformed payload. -/
theorem c7_malformed_json_dropped_without_raising_witness :
    get_metadata ⟨[⟨10, ParseResult.decodeError⟩], []⟩ "d"
        = get_metadata ⟨[], []⟩ "d"
    ∧ (get_metadata ⟨[⟨10, ParseResult.decodeError⟩], []⟩ "d").metadata = "d" := by
  refine ⟨?_, ?_⟩
  · exact c7_malformed_json_dropped_without_raising.2.2.1 "d" [] [] [] 10
  · exact (c7_malformed_json_dropped_without_raising.2.2.2.2 "d" _
      (by intro a ha; simp at ha; subst ha; rfl)).1

/-! ## Embedding of BroadcastHelper (astoria.py lines 156-226)

The helper's event queue is a queue.PriorityQueue, which CPython implements
as a plain list managed by heapq.heappush / heapq.heappop.  The heapq
algorithms are embedded below instruction by instruction (list indices,
tie-breaking child choice and all); the loops of _siftdown and _siftup are
written with an explicit fuel argument so that every function is structural
and computable by the kernel — the fuel passed by the wrappers always
suffices, because _siftdown strictly decreases its position and _siftup
strictly increases it below the length.

Broadcast events come from the external astoria package; modelled from the
spec: an event carries an ordering key, an event name and a sender
identity, and two queued events compare by ordering key alone (so events
with equal keys are incomparable, i.e. ties). -/

/-- A broadcast event: ordering key (priority), event name, sender. -/
structure BroadcastEvent where
  priority : Nat
  event_name : String
  sender_name : String
deriving DecidableEq, Inhabited

/-- The strict less-than heapq applies to queued events: by ordering key. -/
def evLT (a b : BroadcastEvent) : Bool := a.priority < b.priority

/-- The CPython heap: a list indexed so that the children of index i sit at
2i+1 and 2i+2. -/
abbrev EvHeap := List BroadcastEvent

/-- heap[i] (always called in range; the default is never reached). -/
def evAt (l : EvHeap) (i : Nat) : BroadcastEvent := l.getD i default

/-- Loop of CPython heapq._siftdown(heap, startpos, pos): bubble newitem up,
moving each greater parent down, and finally store newitem.  newitem is
heap[pos] at entry (see siftdown); pos strictly decreases, so fuel = pos
always suffices, and the fuel-exhausted branch equals the loop exit. -/
def siftdownAux (newitem : BroadcastEvent) (startpos : Nat) :
    Nat → EvHeap → Nat → EvHeap
  | 0, heap, pos => heap.set pos newitem
  | fuel + 1, heap, pos =>
    if startpos < pos then
      let parentpos := (pos - 1) / 2
      let parent := evAt heap parentpos
      if evLT newitem parent then
        siftdownAux newitem startpos fuel (heap.set pos parent) parentpos
      else heap.set pos newitem
    else heap.set pos newitem

/-- CPython heapq._siftdown(heap, startpos, pos). -/
def siftdown (heap : EvHeap) (startpos pos : Nat) : EvHeap :=
  siftdownAux (evAt heap pos) startpos pos heap pos

/-- The child index one _siftup iteration descends to (heapq lines
"childpos = 2*pos + 1" through "childpos = rightpos"): the left child,
unless a right child exists and the left does not compare strictly below it
(so ties pick the RIGHT child). -/
def chooseChild (heap : EvHeap) (pos : Nat) : Nat :=
  if 2 * pos + 1 + 1 < heap.length
      && !evLT (evAt heap (2 * pos + 1)) (evAt heap (2 * pos + 1 + 1))
  then 2 * pos + 1 + 1 else 2 * pos + 1

/-- Loop of CPython heapq._siftup(heap, pos): move the smaller child up
until reaching a leaf, then store newitem at the leaf and sift it down with
_siftdown.  The child index strictly increases below the length, so fuel =
heap.length suffices, and the fuel-exhausted branch equals the loop exit. -/
def siftupAux (newitem : BroadcastEvent) (startpos : Nat) :
    Nat → EvHeap → Nat → EvHeap
  | 0, heap, pos => siftdownAux newitem startpos pos (heap.set pos newitem) pos
  | fuel + 1, heap, pos =>
    let endpos := heap.length
    let childpos := 2 * pos + 1
    if childpos < endpos then
      let childpos2 := chooseChild heap pos
      siftupAux newitem startpos fuel (heap.set pos (evAt heap childpos2)) childpos2
    else siftdownAux newitem startpos pos (heap.set pos newitem) pos

/-- CPython heapq._siftup(heap, pos); newitem = heap[pos], startpos = pos. -/
def siftup (heap : EvHeap) (pos : Nat) : EvHeap :=
  siftupAux (evAt heap pos) pos heap.length heap pos

/-- heapq.heappush(heap, item): append item, then _siftdown(heap, 0,
len(heap)-1). -/
def heappush (heap : EvHeap) (item : BroadcastEvent) : EvHeap :=
  siftdown (heap ++ [item]) 0 heap.length

/-- heapq.heappop(heap): pop the last element; if the heap is now nonempty,
swap it into index 0 and _siftup(heap, 0), returning the old heap[0]. -/
def heappop : EvHeap → Option (BroadcastEvent × EvHeap)
  | [] => none
  | [x] => some (x, [])
  | x :: y :: xs =>
    let lastelt := (x :: y :: xs).getLastD default
    let rest := (x :: y :: xs).dropLast
    some (x, siftup (rest.set 0 lastelt) 0)

/-- Repeated PriorityQueue.get (= heappop) until the queue is empty: the
order in which wait_broadcast hands out all queued events. -/
def drainAux : Nat → EvHeap → List BroadcastEvent
  | 0, _ => []
  | fuel + 1, heap =>
    match heappop heap with
    | none => []
    | some (x, rest) => x :: drainAux fuel rest

/-- Dequeue every queued event in delivery order. -/
def drain (heap : EvHeap) : List BroadcastEvent := drainAux heap.length heap

/-- PriorityQueue.put (= heappush) for each event in arrival order. -/
def pushAll (es : List BroadcastEvent) : EvHeap := es.foldl heappush []

/-- BroadcastHelper observable state: the priority queue and the
message_received event (astoria.py lines 176-177). -/
structure BHState where
  event_queue : EvHeap
  message_received : Bool
deriving DecidableEq

/-- BroadcastHelper._handle_broadcast (astoria.py lines 191-210): parse the
payload and validate it against the schema; on success put the event on the
priority queue and set message_received.  Only JSONDecodeError is caught
(logged and dropped); a pydantic ValidationError from parse_obj_as escapes
the callback, which the Except.error result records. -/
def handleBroadcast (st : BHState) (p : ParseResult BroadcastEvent) :
    Except String BHState :=
  match p with
  | ParseResult.ok ev => Except.ok ⟨heappush st.event_queue ev, true⟩
  | ParseResult.decodeError => Except.ok st
  | ParseResult.validationError => Except.error "pydantic.ValidationError"

/-! ## Claim theorems about the broadcast multiplexer -/

/-- C4 counterexample: a well-formed JSON payload that fails schema
validation is NOT handled like malformed JSON: the malformed payload is
dropped with the state unchanged, but the validation failure makes the
callback raise (pydantic.ValidationError is not caught in
_handle_broadcast), so the two outcomes differ. -/
theorem c4_counterexample_validation_error_escapes :
    handleBroadcast ⟨[], false⟩ ParseResult.validationError
        = Except.error "pydantic.ValidationError"
    ∧ handleBroadcast ⟨[], false⟩ ParseResult.decodeError
        = Except.ok ⟨[], false⟩
    ∧ (Except.error "pydantic.ValidationError" : Except String BHState)
        ≠ Except.ok ⟨[], false⟩ := by
  refine ⟨rfl, rfl, ?_⟩
  intro h
  exact Except.noConfusion h

/-- C4 (amended): malformed JSON is logged and dropped (state unchanged, no
event enqueued, nothing raised), but a payload failing schema validation is
not caught: no event is enqueued and the ValidationError propagates out of
the callback (only then; a parsed event is enqueued and signalled). -/
theorem c4_amended_validation_error_not_caught :
    ∀ st : BHState,
      handleBroadcast st ParseResult.decodeError = Except.ok st
      ∧ handleBroadcast st ParseResult.validationError
          = Except.error "pydantic.ValidationError"
      ∧ ∀ ev : BroadcastEvent,
          handleBroadcast st (ParseResult.ok ev)
            = Except.ok ⟨heappush st.event_queue ev, true⟩ := by
  intro st
  exact ⟨rfl, rfl, fun ev => rfl⟩

/-- C3 counterexample: four events with identical ordering keys, inserted
in the order s0 s1 s2 s3, are dequeued as s0 s2 s1 s3 — the binary-heap
pop is not a stable FIFO on ties (checked against CPython's heapq, which
backs queue.PriorityQueue). -/
theorem c3_counterexample_equal_keys_not_fifo :
    drain (pushAll
        [⟨5, "tick", "s0"⟩, ⟨5, "tick", "s1"⟩, ⟨5, "tick", "s2"⟩, ⟨5, "tick", "s3"⟩])
      = [⟨5, "tick", "s0"⟩, ⟨5, "tick", "s2"⟩, ⟨5, "tick", "s1"⟩, ⟨5, "tick", "s3"⟩]
    ∧ drain (pushAll
        [⟨5, "tick", "s0"⟩, ⟨5, "tick", "s1"⟩, ⟨5, "tick", "s2"⟩, ⟨5, "tick", "s3"⟩])
      ≠ [⟨5, "tick", "s0"⟩, ⟨5, "tick", "s1"⟩, ⟨5, "tick", "s2"⟩, ⟨5, "tick", "s3"⟩] := by
  exact ⟨by decide, by decide⟩

/-! ## Heap correctness: index access and permutation lemmas -/

/-- Helper: reading a set cell in range. -/
theorem evAt_set_self : ∀ (l : EvHeap) (i : Nat) (v : BroadcastEvent),
    i < l.length → evAt (l.set i v) i = v := by
  intro l
  induction l with
  | nil => intro i v h; simp at h
  | cons a t ih =>
    intro i v h
    cases i with
    | zero => rfl
    | succ n => exact ih n v (by simpa using h)

/-- Helper: setting one cell leaves every other cell unchanged. -/
theorem evAt_set_ne : ∀ (l : EvHeap) (i j : Nat) (v : BroadcastEvent),
    i ≠ j → evAt (l.set i v) j = evAt l j := by
  intro l
  induction l with
  | nil => intro i j v _; simp [List.set]
  | cons a t ih =>
    intro i j v hij
    cases i with
    | zero =>
      cases j with
      | zero => exact absurd rfl hij
      | succ m => rfl
    | succ n =>
      cases j with
      | zero => rfl
      | succ m => exact ih n m v (by omega)

/-- Helper: writing back the value already present changes nothing. -/
theorem set_evAt_self : ∀ (l : EvHeap) (i : Nat), l.set i (evAt l i) = l := by
  intro l
  induction l with
  | nil => intro i; rfl
  | cons a t ih =>
    intro i
    cases i with
    | zero => rfl
    | succ n => simpa [List.set, evAt] using ih n

/-- Helper: reading left of an appended singleton. -/
theorem evAt_append_left : ∀ (l : EvHeap) (x : BroadcastEvent) (i : Nat),
    i < l.length → evAt (l ++ [x]) i = evAt l i := by
  intro l
  induction l with
  | nil => intro x i h; simp at h
  | cons a t ih =>
    intro x i h
    cases i with
    | zero => rfl
    | succ n => exact ih x n (by simpa using h)

/-- Helper: reading the appended singleton itself. -/
theorem evAt_append_right : ∀ (l : EvHeap) (x : BroadcastEvent),
    evAt (l ++ [x]) l.length = x := by
  intro l
  induction l with
  | nil => intro x; rfl
  | cons a t ih => intro x; exact ih x

/-- Helper: pulling the cell value to the front against an overwrite is a
permutation. -/
theorem perm_evAt_cons_set : ∀ (l : EvHeap) (j : Nat) (v : BroadcastEvent),
    j < l.length → (evAt l j :: l.set j v).Perm (v :: l) := by
  intro l
  induction l with
  | nil => intro j v h; simp at h
  | cons a t ih =>
    intro j v h
    cases j with
    | zero => exact List.Perm.swap v a t
    | succ m =>
      exact (List.Perm.swap a (evAt t m) (t.set m v)).trans
        (((ih m v (by simpa using h)).cons a).trans (List.Perm.swap v a t))

/-- Helper: swapping which value is consed and which is written is a
permutation. -/
theorem perm_cons_set_exchange : ∀ (l : EvHeap) (i : Nat) (x v : BroadcastEvent),
    i < l.length → (v :: l.set i x).Perm (x :: l.set i v) := by
  intro l
  induction l with
  | nil => intro i x v h; simp at h
  | cons a t ih =>
    intro i x v h
    cases i with
    | zero => exact List.Perm.swap x v t
    | succ n =>
      exact (List.Perm.swap a v (t.set n x)).trans
        (((ih n x v (by simpa using h)).cons a).trans
          (List.Perm.swap x a (t.set n v)))

/-- Helper: the two-write rotation performed by one sift step is a
permutation of a single write. -/
theorem perm_set_set_rotate : ∀ (l : EvHeap) (i j : Nat) (v : BroadcastEvent),
    i < l.length → j < l.length → i ≠ j →
    (((l.set i (evAt l j)).set j v)).Perm (l.set i v) := by
  intro l
  induction l with
  | nil => intro i j v h _ _; simp at h
  | cons a t ih =>
    intro i j v hi hj hij
    cases i with
    | zero =>
      cases j with
      | zero => exact absurd rfl hij
      | succ m =>
        simp only [List.set]
        exact (perm_evAt_cons_set t m v (by simpa using hj))
    | succ n =>
      cases j with
      | zero =>
        simp only [List.set, evAt, List.getD]
        exact perm_cons_set_exchange t n a v (by simpa using hi)
      | succ m =>
        simp only [List.set]
        exact (ih n m v (by simpa using hi) (by simpa using hj) (by omega)).cons a

/-- Helper: bounds for the chosen child: strictly below the length and
strictly beyond the parent, whenever a left child exists. -/
theorem chooseChild_bounds (heap : EvHeap) (pos : Nat)
    (h : 2 * pos + 1 < heap.length) :
    pos < chooseChild heap pos ∧ chooseChild heap pos < heap.length
    ∧ (chooseChild heap pos = 2 * pos + 1 ∨ chooseChild heap pos = 2 * pos + 2) := by
  unfold chooseChild
  split
  next hcond =>
    have h2 : 2 * pos + 1 + 1 < heap.length := by
      have := (Bool.and_eq_true _ _).mp hcond
      exact of_decide_eq_true this.1
    exact ⟨by omega, by omega, Or.inr (by omega)⟩
  next => exact ⟨by omega, h, Or.inl rfl⟩

/-- Helper: the sift-down loop permutes the heap exactly like writing
newitem straight into the hole. -/
theorem siftdownAux_perm (newitem : BroadcastEvent) :
    ∀ (fuel : Nat) (heap : EvHeap) (pos : Nat), pos < heap.length →
      (siftdownAux newitem 0 fuel heap pos).Perm (heap.set pos newitem) := by
  intro fuel
  induction fuel with
  | zero => intro heap pos _; exact List.Perm.refl _
  | succ fuel ih =>
    intro heap pos h
    simp only [siftdownAux]
    split
    next hpos =>
      split
      next hlt =>
        have hpp : (pos - 1) / 2 < heap.length := by omega
        have h1 := ih (heap.set pos (evAt heap ((pos - 1) / 2))) ((pos - 1) / 2)
          (by simpa using hpp)
        exact h1.trans
          (perm_set_set_rotate heap pos ((pos - 1) / 2) newitem h hpp (by omega))
      next => exact List.Perm.refl _
    next => exact List.Perm.refl _

/-- Helper: the sift-up loop permutes the heap exactly like writing newitem
straight into the hole. -/
theorem siftupAux_perm (newitem : BroadcastEvent) :
    ∀ (fuel : Nat) (heap : EvHeap) (pos : Nat), pos < heap.length →
      (siftupAux newitem 0 fuel heap pos).Perm (heap.set pos newitem) := by
  intro fuel
  induction fuel with
  | zero =>
    intro heap pos h
    have h1 := siftdownAux_perm newitem pos (heap.set pos newitem) pos
      (by simpa using h)
    simpa [List.set_set] using h1
  | succ fuel ih =>
    intro heap pos h
    simp only [siftupAux]
    split
    next hc =>
      obtain ⟨hgt, hlen, -⟩ := chooseChild_bounds heap pos hc
      have h1 := ih (heap.set pos (evAt heap (chooseChild heap pos)))
        (chooseChild heap pos) (by simpa using hlen)
      exact h1.trans
        (perm_set_set_rotate heap pos (chooseChild heap pos) newitem h hlen
          (by omega))
    next =>
      have h1 := siftdownAux_perm newitem pos (heap.set pos newitem) pos
        (by simpa using h)
      simpa [List.set_set] using h1

/-- Helper: heappush produces a permutation of append. -/
theorem heappush_perm (heap : EvHeap) (item : BroadcastEvent) :
    (heappush heap item).Perm (heap ++ [item]) := by
  unfold heappush siftdown
  have hlen : heap.length < (heap ++ [item]).length := by simp
  have h1 := siftdownAux_perm (evAt (heap ++ [item]) heap.length) heap.length
    (heap ++ [item]) heap.length hlen
  simpa [set_evAt_self, evAt_append_right] using h1

/-- Helper: heappop returns none exactly on the empty queue. -/
theorem heappop_eq_none (l : EvHeap) : heappop l = none ↔ l = [] := by
  cases l with
  | nil => simp [heappop]
  | cons x xs =>
    cases xs with
    | nil => simp [heappop]
    | cons y ys => simp [heappop]

/-- Helper: the heap siftup after a pop permutes like the raw write. -/
theorem siftup_perm_self (h0 : EvHeap) (hlen0 : 0 < h0.length) :
    (siftup h0 0).Perm h0 := by
  unfold siftup
  have h1 := siftupAux_perm (evAt h0 0) h0.length h0 0 hlen0
  simpa [set_evAt_self] using h1

/-- Helper: heappop returns the root and a permutation of the rest. -/
theorem heappop_perm (l : EvHeap) (x : BroadcastEvent) (rest : EvHeap)
    (h : heappop l = some (x, rest)) : (x :: rest).Perm l := by
  cases l with
  | nil => simp [heappop] at h
  | cons a as =>
    cases as with
    | nil =>
      simp only [heappop, Option.some.injEq, Prod.mk.injEq] at h
      obtain ⟨rfl, rfl⟩ := h
      exact List.Perm.refl _
    | cons b xs =>
      simp only [heappop, Option.some.injEq, Prod.mk.injEq] at h
      obtain ⟨rfl, rfl⟩ := h
      have hlen0 : 0 < (((a :: b :: xs).dropLast).set 0
          ((a :: b :: xs).getLastD default)).length := by
        simp
      have hperm := siftup_perm_self _ hlen0
      refine (hperm.cons a).trans ?_
      have hX : (((a :: b :: xs).dropLast).set 0 ((a :: b :: xs).getLastD default))
          = ((a :: b :: xs).getLastD default) :: (b :: xs).dropLast := rfl
      rw [hX]
      have h2 : (((a :: b :: xs).getLastD default) :: (b :: xs).dropLast).Perm
          ((b :: xs).dropLast ++ [(a :: b :: xs).getLastD default]) :=
        (List.perm_append_singleton _ _).symm
      refine (h2.cons a).trans ?_
      have hne : (a :: b :: xs) ≠ [] := by simp
      have h3 : a :: ((b :: xs).dropLast ++ [(a :: b :: xs).getLastD default])
          = a :: b :: xs := by
        have hlast : (a :: b :: xs).getLastD default = (a :: b :: xs).getLast hne := by
          rw [List.getLastD_eq_getLast?, List.getLast?_eq_getLast_of_ne_nil hne]
          rfl
        rw [hlast]
        have h4 := List.dropLast_append_getLast hne
        simpa using h4
      rw [h3]

/-! ## Heap correctness: the heap invariant -/

/-- Ordering key stored at index i. -/
def keyAt (l : EvHeap) (i : Nat) : Nat := (evAt l i).priority

/-- The binary-heap invariant of CPython's heapq: every non-root cell is at
least its parent. -/
def IsHeap (l : EvHeap) : Prop :=
  ∀ j, 0 < j → j < l.length → keyAt l ((j - 1) / 2) ≤ keyAt l j

/-- Invariant carried through the _siftdown loop: the hole sits at pos; all
edges not touching the hole hold; the hole's children (if any) are at least
newitem and at least the hole's parent. -/
def SdInv (heap : EvHeap) (pos : Nat) (newitem : BroadcastEvent) : Prop :=
  (∀ j, 0 < j → j < heap.length → j ≠ pos → (j - 1) / 2 ≠ pos →
    keyAt heap ((j - 1) / 2) ≤ keyAt heap j)
  ∧ (∀ c, (c = 2 * pos + 1 ∨ c = 2 * pos + 2) → c < heap.length →
      newitem.priority ≤ keyAt heap c)
  ∧ (∀ c, (c = 2 * pos + 1 ∨ c = 2 * pos + 2) → c < heap.length → 0 < pos →
      keyAt heap ((pos - 1) / 2) ≤ keyAt heap c)

/-- Helper: filling the hole with newitem yields a heap, provided newitem is
at least the hole's parent (or the hole is the root). -/
theorem sdinv_place (newitem : BroadcastEvent) (heap : EvHeap) (pos : Nat)
    (hlen : pos < heap.length) (hinv : SdInv heap pos newitem)
    (hready : pos = 0 ∨ keyAt heap ((pos - 1) / 2) ≤ newitem.priority) :
    IsHeap (heap.set pos newitem) := by
  obtain ⟨h1, h2, h3⟩ := hinv
  intro j hj0 hjlen
  rw [List.length_set] at hjlen
  by_cases hjp : j = pos
  · subst hjp
    have hpar : keyAt heap ((j - 1) / 2) ≤ newitem.priority := by
      cases hready with
      | inl h0 => omega
      | inr hle => exact hle
    unfold keyAt
    rw [evAt_set_ne heap j ((j - 1) / 2) newitem (by omega),
      evAt_set_self heap j newitem hjlen]
    exact hpar
  · by_cases hpj : (j - 1) / 2 = pos
    · unfold keyAt
      rw [hpj, evAt_set_self heap pos newitem hlen,
        evAt_set_ne heap pos j newitem (fun he => hjp he.symm)]
      exact h2 j (by omega) hjlen
    · unfold keyAt
      rw [evAt_set_ne heap pos j newitem (fun he => hjp he.symm),
        evAt_set_ne heap pos ((j - 1) / 2) newitem (fun he => hpj he.symm)]
      exact h1 j hj0 hjlen hjp hpj

/-- Helper: the _siftdown loop turns the invariant into a heap. -/
theorem siftdownAux_isHeap (newitem : BroadcastEvent) :
    ∀ (fuel : Nat) (heap : EvHeap) (pos : Nat),
      pos < heap.length → pos ≤ fuel → SdInv heap pos newitem →
      IsHeap (siftdownAux newitem 0 fuel heap pos) := by
  intro fuel
  induction fuel with
  | zero =>
    intro heap pos hlen hf hinv
    exact sdinv_place newitem heap pos hlen hinv (Or.inl (by omega))
  | succ fuel ih =>
    intro heap pos hlen hf hinv
    simp only [siftdownAux]
    split
    next hpos =>
      split
      next hlt =>
        have hltn : newitem.priority < (evAt heap ((pos - 1) / 2)).priority :=
          of_decide_eq_true hlt
        obtain ⟨h1, h2, h3⟩ := hinv
        have hpplen : (pos - 1) / 2 < heap.length := by omega
        refine ih (heap.set pos (evAt heap ((pos - 1) / 2))) ((pos - 1) / 2)
          (by simpa using hpplen) (by omega) ⟨?_, ?_, ?_⟩
        · intro j hj0 hjlen hne hparne
          rw [List.length_set] at hjlen
          by_cases hj_pos : j = pos
          · subst hj_pos
            exact absurd rfl hparne
          · by_cases hpar_pos : (j - 1) / 2 = pos
            · unfold keyAt
              rw [hpar_pos, evAt_set_self heap pos _ hlen,
                evAt_set_ne heap pos j _ (fun he => hj_pos he.symm)]
              exact h3 j (by omega) hjlen hpos
            · unfold keyAt
              rw [evAt_set_ne heap pos j _ (fun he => hj_pos he.symm),
                evAt_set_ne heap pos ((j - 1) / 2) _ (fun he => hpar_pos he.symm)]
              exact h1 j hj0 hjlen hj_pos hpar_pos
        · intro c hc hclen
          rw [List.length_set] at hclen
          by_cases hcpos : c = pos
          · subst hcpos
            unfold keyAt
            rw [evAt_set_self heap c _ hlen]
            omega
          · unfold keyAt
            rw [evAt_set_ne heap pos c _ (fun he => hcpos he.symm)]
            have hcpar : (c - 1) / 2 = (pos - 1) / 2 := by omega
            have := h1 c (by omega) hclen hcpos (by omega)
            rw [hcpar] at this
            unfold keyAt at this
            omega
        · intro c hc hclen hpp0
          rw [List.length_set] at hclen
          have hgp : (((pos - 1) / 2) - 1) / 2 ≠ pos := by omega
          have hedge : keyAt heap ((((pos - 1) / 2) - 1) / 2)
              ≤ keyAt heap ((pos - 1) / 2) :=
            h1 ((pos - 1) / 2) hpp0 hpplen (by omega) hgp
          by_cases hcpos : c = pos
          · subst hcpos
            unfold keyAt
            rw [evAt_set_self heap c _ hlen,
              evAt_set_ne heap c ((((c - 1) / 2) - 1) / 2) _ (by omega)]
            unfold keyAt at hedge
            omega
          · unfold keyAt
            rw [evAt_set_ne heap pos c _ (fun he => hcpos he.symm),
              evAt_set_ne heap pos ((((pos - 1) / 2) - 1) / 2) _ (by omega)]
            have hcpar : (c - 1) / 2 = (pos - 1) / 2 := by omega
            have hsib := h1 c (by omega) hclen hcpos (by omega)
            rw [hcpar] at hsib
            unfold keyAt at hedge hsib
            omega
      next hlt =>
        have hltn : (evAt heap ((pos - 1) / 2)).priority ≤ newitem.priority := by
          have := of_decide_eq_false (Bool.of_not_eq_true hlt)
          omega
        exact sdinv_place newitem heap pos hlen hinv (Or.inr hltn)
    next hpos =>
      exact sdinv_place newitem heap pos hlen hinv (Or.inl (by omega))

/-- Helper: heappush preserves the heap invariant. -/
theorem heappush_isHeap (heap : EvHeap) (item : BroadcastEvent)
    (hh : IsHeap heap) : IsHeap (heappush heap item) := by
  unfold heappush siftdown
  rw [evAt_append_right]
  refine siftdownAux_isHeap item heap.length (heap ++ [item]) heap.length
    (by simp) le_rfl ⟨?_, ?_, ?_⟩
  · intro j hj0 hjlen hne hparne
    simp only [List.length_append, List.length_cons, List.length_nil] at hjlen
    have hjlt : j < heap.length := by omega
    unfold keyAt
    rw [evAt_append_left heap item j hjlt,
      evAt_append_left heap item ((j - 1) / 2) (by omega)]
    exact hh j hj0 hjlt
  · intro c hc hclen
    simp only [List.length_append, List.length_cons, List.length_nil] at hclen
    omega
  · intro c hc hclen
    simp only [List.length_append, List.length_cons, List.length_nil] at hclen
    omega

/-- Helper: the chosen child's key is at most either child's key. -/
theorem chooseChild_le_sibling (heap : EvHeap) (pos : Nat)
    (_h : 2 * pos + 1 < heap.length) :
    ∀ s, (s = 2 * pos + 1 ∨ s = 2 * pos + 2) → s < heap.length →
      keyAt heap (chooseChild heap pos) ≤ keyAt heap s := by
  intro s hs hslen
  unfold chooseChild
  split
  next hcond =>
    have hc2 := (Bool.and_eq_true _ _).mp hcond
    have hnlt : ¬((evAt heap (2 * pos + 1)).priority
        < (evAt heap (2 * pos + 1 + 1)).priority) := by
      have hb : evLT (evAt heap (2 * pos + 1)) (evAt heap (2 * pos + 1 + 1))
          = false := by
        cases hbv : evLT (evAt heap (2 * pos + 1)) (evAt heap (2 * pos + 1 + 1)) with
        | false => rfl
        | true => rw [hbv] at hc2; exact absurd hc2.2 (by simp)
      exact of_decide_eq_false hb
    cases hs with
    | inl h1 =>
      subst h1
      unfold keyAt
      omega
    | inr h2 =>
      subst h2
      have heq : 2 * pos + 1 + 1 = 2 * pos + 2 := by omega
      rw [heq]
  next hcond =>
    cases hs with
    | inl h1 => subst h1; exact le_refl _
    | inr h2 =>
      subst h2
      have hr : 2 * pos + 1 + 1 < heap.length := by omega
      rw [decide_eq_true hr, Bool.true_and] at hcond
      have hcond2 : evLT (evAt heap (2 * pos + 1)) (evAt heap (2 * pos + 1 + 1))
          = true := by
        cases hbv : evLT (evAt heap (2 * pos + 1)) (evAt heap (2 * pos + 1 + 1)) with
        | true => rfl
        | false => rw [hbv] at hcond; exact absurd rfl hcond
      have hlt : (evAt heap (2 * pos + 1)).priority
          < (evAt heap (2 * pos + 1 + 1)).priority := of_decide_eq_true hcond2
      have heq : 2 * pos + 2 = 2 * pos + 1 + 1 := by omega
      rw [heq]
      unfold keyAt
      omega

/-- Invariant carried through the _siftup loop: the hole sits at pos; all
edges not touching the hole hold; the hole's children (if any) are at least
the hole's parent. -/
def SuInv (heap : EvHeap) (pos : Nat) : Prop :=
  (∀ j, 0 < j → j < heap.length → j ≠ pos → (j - 1) / 2 ≠ pos →
    keyAt heap ((j - 1) / 2) ≤ keyAt heap j)
  ∧ (∀ c, (c = 2 * pos + 1 ∨ c = 2 * pos + 2) → c < heap.length → 0 < pos →
    keyAt heap ((pos - 1) / 2) ≤ keyAt heap c)

/-- Helper: the _siftup loop (followed by its final _siftdown) turns the
invariant into a heap. -/
theorem siftupAux_isHeap (newitem : BroadcastEvent) :
    ∀ (fuel : Nat) (heap : EvHeap) (pos : Nat),
      pos < heap.length → heap.length ≤ fuel + pos → SuInv heap pos →
      IsHeap (siftupAux newitem 0 fuel heap pos) := by
  intro fuel
  induction fuel with
  | zero =>
    intro heap pos hlen hf _
    exact absurd hlen (by omega)
  | succ fuel ih =>
    intro heap pos hlen hf hinv
    obtain ⟨h1, h2⟩ := hinv
    simp only [siftupAux]
    split
    next hc =>
      obtain ⟨hgt, hclen, hcases⟩ := chooseChild_bounds heap pos hc
      refine ih (heap.set pos (evAt heap (chooseChild heap pos)))
        (chooseChild heap pos) (by simpa using hclen)
        (by rw [List.length_set]; omega) ⟨?_, ?_⟩
      · intro j hj0 hjlen hne hparne
        rw [List.length_set] at hjlen
        by_cases hjpos : j = pos
        · subst hjpos
          unfold keyAt
          rw [evAt_set_self heap j _ hlen,
            evAt_set_ne heap j ((j - 1) / 2) _ (by omega)]
          exact h2 (chooseChild heap j) hcases hclen hj0
        · by_cases hparpos : (j - 1) / 2 = pos
          · unfold keyAt
            rw [hparpos, evAt_set_self heap pos _ hlen,
              evAt_set_ne heap pos j _ (fun he => hjpos he.symm)]
            exact chooseChild_le_sibling heap pos hc j (by omega) hjlen
          · unfold keyAt
            rw [evAt_set_ne heap pos j _ (fun he => hjpos he.symm),
              evAt_set_ne heap pos ((j - 1) / 2) _ (fun he => hparpos he.symm)]
            exact h1 j hj0 hjlen hjpos hparpos
      · intro d hd hdlen hcc0
        rw [List.length_set] at hdlen
        have hdpar : (d - 1) / 2 = chooseChild heap pos := by omega
        have hccpar : (chooseChild heap pos - 1) / 2 = pos := by omega
        unfold keyAt
        rw [hccpar, evAt_set_self heap pos _ hlen,
          evAt_set_ne heap pos d _ (by omega)]
        have hedge := h1 d (by omega) hdlen (by omega) (by omega)
        rw [hdpar] at hedge
        unfold keyAt at hedge
        exact hedge
    next hc =>
      refine siftdownAux_isHeap newitem pos (heap.set pos newitem) pos
        (by simpa using hlen) le_rfl ⟨?_, ?_, ?_⟩
      · intro j hj0 hjlen hne hparne
        rw [List.length_set] at hjlen
        unfold keyAt
        rw [evAt_set_ne heap pos j _ (fun he => hne he.symm),
          evAt_set_ne heap pos ((j - 1) / 2) _ (fun he => hparne he.symm)]
        exact h1 j hj0 hjlen hne hparne
      · intro c hcc hclen
        rw [List.length_set] at hclen
        omega
      · intro c hcc hclen
        rw [List.length_set] at hclen
        omega

/-- Helper: cells of dropLast agree with the original list. -/
theorem evAt_dropLast (l : EvHeap) (i : Nat) (h : i < l.dropLast.length) :
    evAt l.dropLast i = evAt l i := by
  by_cases hne : l = []
  · subst hne; simp at h
  · conv => rhs; rw [← List.dropLast_append_getLast hne]
    exact (evAt_append_left _ _ i h).symm

/-- Helper: the root is a minimum of a heap. -/
theorem isHeap_root_min (l : EvHeap) (hh : IsHeap l) :
    ∀ j, j < l.length → keyAt l 0 ≤ keyAt l j := by
  intro j
  induction j using Nat.strong_induction_on with
  | _ j ih =>
    intro hjlen
    cases Nat.eq_zero_or_pos j with
    | inl h0 => subst h0; exact le_refl _
    | inr hpos =>
      have hpar := ih ((j - 1) / 2) (by omega) (by omega)
      have hedge := hh j hpos hjlen
      omega

/-- Helper: heappop preserves the heap invariant. -/
theorem heappop_isHeap (l : EvHeap) (hh : IsHeap l) (x : BroadcastEvent)
    (rest : EvHeap) (h : heappop l = some (x, rest)) : IsHeap rest := by
  cases l with
  | nil => simp [heappop] at h
  | cons a as =>
    cases as with
    | nil =>
      simp only [heappop, Option.some.injEq, Prod.mk.injEq] at h
      obtain ⟨-, rfl⟩ := h
      intro j hj0 hjlen
      simp at hjlen
    | cons b xs =>
      simp only [heappop, Option.some.injEq, Prod.mk.injEq] at h
      obtain ⟨-, rfl⟩ := h
      have hlen0 : 0 < (((a :: b :: xs).dropLast).set 0
          ((a :: b :: xs).getLastD default)).length := by simp
      unfold siftup
      refine siftupAux_isHeap _ _ _ 0 hlen0 (by omega) ⟨?_, ?_⟩
      · intro j hj0 hjlen hne hparne
        rw [List.length_set] at hjlen
        unfold keyAt
        rw [evAt_set_ne _ 0 j _ (by omega), evAt_set_ne _ 0 ((j - 1) / 2) _ (by omega),
          evAt_dropLast _ j hjlen, evAt_dropLast _ ((j - 1) / 2) (by omega)]
        have hjl : j < (a :: b :: xs).length := by
          simp only [List.length_dropLast] at hjlen
          simp only [List.length_cons]
          simp only [List.length_cons] at hjlen
          omega
        exact hh j hj0 hjl
      · intro c hcc hclen hc0
        omega

/-- Helper: heappop returns the stored root. -/
theorem heappop_root (l : EvHeap) (x : BroadcastEvent) (rest : EvHeap)
    (h : heappop l = some (x, rest)) : evAt l 0 = x := by
  cases l with
  | nil => simp [heappop] at h
  | cons a as =>
    cases as with
    | nil =>
      simp only [heappop, Option.some.injEq, Prod.mk.injEq] at h
      exact h.1
    | cons b xs =>
      simp only [heappop, Option.some.injEq, Prod.mk.injEq] at h
      exact h.1

/-- Helper: cells are list members. -/
theorem evAt_eq_get : ∀ (l : EvHeap) (i : Nat) (h : i < l.length),
    evAt l i = l.get ⟨i, h⟩ := by
  intro l
  induction l with
  | nil => intro i h; simp at h
  | cons a t ih =>
    intro i h
    cases i with
    | zero => rfl
    | succ n => exact ih n (by simpa using h)

/-- Helper: the popped element is a lower bound of the remaining queue. -/
theorem heappop_min (l : EvHeap) (hh : IsHeap l) (x : BroadcastEvent)
    (rest : EvHeap) (h : heappop l = some (x, rest)) :
    ∀ e ∈ rest, x.priority ≤ e.priority := by
  intro e he
  have hperm := heappop_perm l x rest h
  have hel : e ∈ l := hperm.mem_iff.mp (List.mem_cons_of_mem x he)
  obtain ⟨⟨i, hi⟩, hei⟩ := List.mem_iff_get.mp hel
  have hroot := isHeap_root_min l hh i hi
  have hx : evAt l 0 = x := heappop_root l x rest h
  have hkey : (evAt l i).priority = e.priority := by
    rw [evAt_eq_get l i hi, hei]
  unfold keyAt at hroot
  rw [hx] at hroot
  omega

/-- Helper: draining a heap yields a key-sorted permutation of it. -/
theorem drainAux_sorted_perm :
    ∀ (fuel : Nat) (heap : EvHeap), heap.length ≤ fuel → IsHeap heap →
      (drainAux fuel heap).Perm heap
      ∧ List.Pairwise (fun a b => a.priority ≤ b.priority) (drainAux fuel heap) := by
  intro fuel
  induction fuel with
  | zero =>
    intro heap hf _
    have hnil : heap = [] := List.length_eq_zero.mp (by omega)
    subst hnil
    exact ⟨List.Perm.refl _, List.Pairwise.nil⟩
  | succ fuel ih =>
    intro heap hf hh
    simp only [drainAux]
    cases hp : heappop heap with
    | none =>
      have hnil : heap = [] := (heappop_eq_none heap).mp hp
      subst hnil
      exact ⟨List.Perm.refl _, List.Pairwise.nil⟩
    | some pr =>
      obtain ⟨x, rest⟩ := pr
      have hperm := heappop_perm heap x rest hp
      have hrh := heappop_isHeap heap hh x rest hp
      have hmin := heappop_min heap hh x rest hp
      have hlen : rest.length ≤ fuel := by
        have hl := hperm.length_eq
        simp only [List.length_cons] at hl
        omega
      obtain ⟨ihp, ihs⟩ := ih rest hlen hrh
      constructor
      · exact (ihp.cons x).trans hperm
      · exact List.Pairwise.cons (fun e he => hmin e (ihp.mem_iff.mp he)) ihs

/-- Helper: the empty queue is a heap. -/
theorem isHeap_nil : IsHeap [] := by
  intro j hj0 hjlen
  simp at hjlen

/-- Helper: pushing a list of events onto a heap keeps it a heap. -/
theorem foldl_heappush_isHeap :
    ∀ (es : List BroadcastEvent) (h : EvHeap), IsHeap h →
      IsHeap (es.foldl heappush h) := by
  intro es
  induction es with
  | nil => intro h hh; exact hh
  | cons a es ih =>
    intro h hh
    exact ih (heappush h a) (heappush_isHeap h a hh)

/-- Helper: the queue built by the callback is a heap. -/
theorem pushAll_isHeap (es : List BroadcastEvent) : IsHeap (pushAll es) :=
  foldl_heappush_isHeap es [] isHeap_nil

/-- Helper: pushing accumulates a permutation of the pushed events. -/
theorem foldl_heappush_perm :
    ∀ (es : List BroadcastEvent) (h : EvHeap),
      (es.foldl heappush h).Perm (h ++ es) := by
  intro es
  induction es with
  | nil => intro h; simp
  | cons a es ih =>
    intro h
    refine (ih (heappush h a)).trans ?_
    have h1 := (heappush_perm h a).append_right es
    refine h1.trans ?_
    simp

/-- Helper: the queue holds exactly the inserted events. -/
theorem pushAll_perm (es : List BroadcastEvent) : (pushAll es).Perm es := by
  simpa using foldl_heappush_perm es []

/-- C3 (amended): dequeuing all events from a Broadcast Multiplexer's queue
yields every inserted event exactly once, in nondecreasing ordering-key
order — so events with distinct keys come out in key order — but events
whose keys compare equal are NOT guaranteed to come out in insertion order
(the binary heap is not stable; see the counterexample). -/
theorem c3_amended_dequeue_sorted_by_key (es : List BroadcastEvent) :
    (drain (pushAll es)).Perm es
    ∧ List.Pairwise (fun a b => a.priority ≤ b.priority) (drain (pushAll es)) := by
  obtain ⟨hp, hs⟩ := drainAux_sorted_perm (pushAll es).length (pushAll es) le_rfl
    (pushAll_isHeap es)
  exact ⟨hp.trans (pushAll_perm es), hs⟩

end SRRobot
